import Mathlib

/- A Lean model of `auto/RequestHandler.py`, the request-processing engine of
the `server_utils` repository.  Python functions become pure Lean functions;
the filesystem is passed explicitly as the list of regular-file paths present;
the success of `handle_request` and of `os.remove` is supplied by oracles. -/

namespace RH

/-- A parsed YAML document, as far as the request handler inspects it:
strings, mappings from string keys to values, and anything else. -/
inductive Yaml where
  | str (s : String)
  | dict (entries : List (String × Yaml))
  | other

/-- Python `path.startswith(pre)`: byte-wise test that `s` starts with `pre`. -/
def startsWith (pre s : String) : Bool := pre.data.isPrefixOf s.data

/-- Python `os.path.join(dir, name)` for a plain entry name. -/
def joinPath (dir name : String) : String := dir ++ "/" ++ name

/-- Lexicographic less-or-equal on character lists, the order in which Python
compares strings (and hence the order used by `files_list.sort()`). -/
def charListLe : List Char → List Char → Bool
  | [], _ => true
  | _ :: _, [] => false
  | a :: as, b :: bs =>
    if a < b then true
    else if b < a then false
    else charListLe as bs

/-- Python string comparison `a <= b`. -/
def strLe (a b : String) : Bool := charListLe a.data b.data

/-- The sort relation of the drain's `files_list.sort()`, as a proposition. -/
def sortRel (a b : String) : Prop := strLe a b = true

instance : DecidableRel sortRel := fun a b =>
  inferInstanceAs (Decidable (strLe a b = true))

/-- A path lies inside the directory proper: it extends `dir` followed by the
path separator.  This is the claim-level notion of "located inside the
configured requests directory". -/
def insideDir (dir path : String) : Bool := startsWith (dir ++ "/") path

/-- Models `repo.split("/")[0]`: the part of `repo` before the first slash. -/
def repoType (repo : String) : String := ⟨repo.data.takeWhile (fun c => c ≠ '/')⟩

/-- Models `RequestHandler._validate_request`: the content must be a mapping
with a string `user` key and a string `repo` key whose first `/`-delimited
segment is `tasks`, `contests` or `users`. -/
def validateRequest (request : Yaml) : Except String Unit :=
  match request with
  | .dict entries =>
    match entries.lookup "user" with
    | none => .error "Not found user key in request."
    | some u =>
      match u with
      | .str _ =>
        match entries.lookup "repo" with
        | none => .error "Not found repo key in request."
        | some r =>
          match r with
          | .str repo =>
            if ["tasks", "contests", "users"].contains (repoType repo) then .ok ()
            else .error "Expected repository type to be tasks, contests, or users."
          | _ => .error "Expected repo to be a string."
      | _ => .error "Expected user to be a string."
  | _ => .error "Expected request to be a dictionary."

/-- One call to the external update service (`SafeUpdater`). -/
inductive Call where
  | updateContest (contest : String) (update generateNew updateUsers : Bool)
  | updateUsers
  | generateTask (task : String) (update allowClone : Bool)
deriving DecidableEq

/-- Models `RequestHandler._get_task_contests`: for each active contest (in
iteration order), one copy of the contest identifier is appended per entry of
its manifest whose `path` field equals the task repo. -/
def getTaskContests (contests : List String) (manifests : String → List String)
    (taskRepo : String) : List String :=
  contests.flatMap fun contest =>
    ((manifests contest).filter (fun p => p == taskRepo)).map (fun _ => contest)

/-- Models `RequestHandler._update_safely`: the sequence of update-service
calls made for one validated request, or the unknown-repository-type error. -/
def updateSafely (contests : List String) (manifests : String → List String)
    (repo repoKind : String) : Except String (List Call) :=
  if repoKind == "contests" then
    if contests.contains repo then
      .ok [.updateContest repo true true true]
    else
      .ok []
  else if repoKind == "users" then
    .ok (.updateUsers :: contests.map (fun contest => .updateContest contest true true false))
  else if repoKind == "tasks" then
    if (getTaskContests contests manifests repo).isEmpty then
      .ok []
    else
      .ok (.generateTask repo true true ::
        (getTaskContests contests manifests repo).map
          (fun contest => .updateContest contest true true false))
  else
    .error ("Unknown repository type: " ++ repoKind)

/-- The list of calls of a dispatch result (empty on the error branch). -/
def getCalls (r : Except String (List Call)) : List Call :=
  match r with
  | .ok calls => calls
  | .error _ => []

/-- Outcome of one `_delete_request` invocation. -/
inductive DeleteOutcome where
  | notFile
  | fatalExit
  | removed
  | removeFailed
deriving DecidableEq

/-- Models `RequestHandler._delete_request`.  Paths are modeled as already
absolute, normalized strings, so `os.path.abspath` is the identity; `fs` is
the list of regular files present; `removeOk` tells whether `os.remove`
succeeds.  Returns the outcome together with the filesystem afterwards:
`notFile` when the path is no regular file (logged, caller continues),
`fatalExit` when the path fails the `startswith` sanity check (`sys.exit(1)`),
`removed`/`removeFailed` for the removal attempt (a failure is logged and the
caller continues). -/
def deleteRequest (dir path : String) (fs : List String) (removeOk : Bool) :
    DeleteOutcome × List String :=
  if fs.contains path = false then (.notFile, fs)
  else if startsWith dir path = false then (.fatalExit, fs)
  else if removeOk then (.removed, fs.erase path)
  else (.removeFailed, fs)

/-- One entry of the requests directory, with the result the code's
`os.path.isfile` test would give for it (`false` for subdirectories). -/
structure DirEntry where
  name : String
  isFile : Bool
deriving DecidableEq

/-- The full paths of the regular files among the directory entries, in
listing order: `os.listdir` + `os.path.join` + `filter(os.path.isfile, ...)`. -/
def filesOf (dir : String) (entries : List DirEntry) : List String :=
  (entries.filter (fun e => e.isFile)).map (fun e => joinPath dir e.name)

/-- Models the enumeration step of `handle_existing_requests`: list the
directory, join, keep regular files, and sort ascending (`files_list.sort()`). -/
def enumerateRequests (dir : String) (entries : List DirEntry) : List String :=
  List.insertionSort sortRel (filesOf dir entries)

/-- Result of one drain pass. -/
structure DrainResult where
  fatal : Bool
  fs : List String
  handled : List String
  fails : List String
  sleeps : Nat
deriving DecidableEq

/-- The per-file loop of `handle_existing_requests`: for each pending path,
`handle_request` runs once (its success, given by the `handleOk` oracle, is
only logged into `fails`), then `_delete_request` runs; a fatal deletion
outcome terminates the process, otherwise the loop sleeps the cooling
duration and moves on. -/
def drainFrom (dir : String) (handleOk removeOk : String → Bool) :
    List String → List String → List String → List String → Nat → DrainResult
  | [], fs, handled, fails, sleeps => ⟨false, fs, handled, fails, sleeps⟩
  | path :: rest, fs, handled, fails, sleeps =>
    if (deleteRequest dir path fs (removeOk path)).1 = DeleteOutcome.fatalExit then
      ⟨true, (deleteRequest dir path fs (removeOk path)).2, handled ++ [path],
        if handleOk path then fails else fails ++ [path], sleeps⟩
    else
      drainFrom dir handleOk removeOk rest (deleteRequest dir path fs (removeOk path)).2
        (handled ++ [path]) (if handleOk path then fails else fails ++ [path]) (sleeps + 1)

/-- Models `RequestHandler.handle_existing_requests`: enumerate the request
files present at drain start and process exactly those, in sorted order. -/
def handleExistingRequests (dir : String) (handleOk removeOk : String → Bool)
    (entries : List DirEntry) : DrainResult :=
  drainFrom dir handleOk removeOk (enumerateRequests dir entries) (filesOf dir entries) [] [] 0

/-- Models `RequestHandler.process_IN_CLOSE_WRITE`: the notification callback
logs the basename of the event's path and then invokes a full drain; the
event's path plays no other role. -/
def processInCloseWrite (dir : String) (handleOk removeOk : String → Bool)
    (entries : List DirEntry) (_eventPathname : String) : DrainResult :=
  handleExistingRequests dir handleOk removeOk entries

/-- The operations the entry point can perform, at the granularity the spec
talks about. -/
inductive EngineStep where
  | drainAll
  | watchLoop
deriving DecidableEq

/-- Models `RequestHandler.watch_forever`: set up the watch and block in the
notifier loop.  No drain happens before the loop. -/
def watchForeverSteps : List EngineStep := [EngineStep.watchLoop]

/-- Models `main`: construct the handler (`my_init`) and call `watch_forever`.
The body performs no drain of its own. -/
def mainSteps : List EngineStep := watchForeverSteps

/-- Stated from the spec's words for claim C5 (for comparison with
`enumerateRequests`, which is translated from the code): the enumeration that
the claim describes, with the lock file `.lock` excluded. -/
def specEnumerateC5 (dir : String) (entries : List DirEntry) : List String :=
  List.insertionSort sortRel
    ((entries.filter (fun e => e.isFile && e.name != ".lock")).map
      (fun e => joinPath dir e.name))

theorem charListLe_total : ∀ (a b : List Char), charListLe a b = true ∨ charListLe b a = true := by
  intro a
  induction a with
  | nil => intro b; left; simp [charListLe]
  | cons x xs ih =>
    intro b
    cases b with
    | nil => right; simp [charListLe]
    | cons y ys =>
      rcases lt_trichotomy x y with hxy | hxy | hxy
      · left; simp [charListLe, hxy]
      · subst hxy
        rcases ih ys with h | h
        · left; simp [charListLe, lt_irrefl, h]
        · right; simp [charListLe, lt_irrefl, h]
      · right; simp [charListLe, hxy]

theorem charListLe_trans : ∀ {a b c : List Char},
    charListLe a b = true → charListLe b c = true → charListLe a c = true := by
  intro a
  induction a with
  | nil => intro b c _ _; simp [charListLe]
  | cons x xs ih =>
    intro b c hab hbc
    cases b with
    | nil => simp [charListLe] at hab
    | cons y ys =>
      cases c with
      | nil => simp [charListLe] at hbc
      | cons z zs =>
        rcases lt_trichotomy x y with hxy | hxy | hxy
        · rcases lt_trichotomy y z with hyz | hyz | hyz
          · simp [charListLe, lt_trans hxy hyz]
          · subst hyz; simp [charListLe, hxy]
          · simp [charListLe, hyz, lt_asymm hyz] at hbc
        · subst hxy
          rcases lt_trichotomy x z with hxz | hxz | hxz
          · simp [charListLe, hxz]
          · subst hxz
            simp [charListLe, lt_irrefl] at hab hbc ⊢
            exact ih hab hbc
          · simp [charListLe, hxz, lt_asymm hxz] at hbc
        · simp [charListLe, hxy, lt_asymm hxy] at hab

theorem charListLe_antisymm : ∀ {a b : List Char},
    charListLe a b = true → charListLe b a = true → a = b := by
  intro a
  induction a with
  | nil =>
    intro b _ hba
    cases b with
    | nil => rfl
    | cons y ys => simp [charListLe] at hba
  | cons x xs ih =>
    intro b hab hba
    cases b with
    | nil => simp [charListLe] at hab
    | cons y ys =>
      rcases lt_trichotomy x y with hxy | hxy | hxy
      · simp [charListLe, lt_asymm hxy, hxy] at hba
      · subst hxy
        simp [charListLe, lt_irrefl] at hab hba
        rw [ih hab hba]
      · simp [charListLe, lt_asymm hxy, hxy] at hab

instance : IsTotal String sortRel := ⟨fun a b => charListLe_total a.data b.data⟩

instance : IsTrans String sortRel := ⟨fun _ _ _ hab hbc => charListLe_trans hab hbc⟩

instance : IsAntisymm String sortRel :=
  ⟨fun a b hab hba => by
    cases a with
    | mk da =>
      cases b with
      | mk db => exact congrArg String.mk (charListLe_antisymm hab hba)⟩

theorem charListLe_append (l a b : List Char) :
    charListLe (l ++ a) (l ++ b) = charListLe a b := by
  induction l with
  | nil => rfl
  | cons x xs ih => simp [charListLe, lt_irrefl, ih]

theorem data_append (s t : String) : (s ++ t).data = s.data ++ t.data := rfl

theorem strLe_joinPath (dir a b : String) :
    strLe (joinPath dir a) (joinPath dir b) = strLe a b := by
  show charListLe ((dir ++ "/") ++ a).data ((dir ++ "/") ++ b).data = _
  rw [data_append, data_append]
  exact charListLe_append (dir ++ "/").data a.data b.data

theorem listIsPrefixOf_append (l t : List Char) : l.isPrefixOf (l ++ t) = true := by
  simp

theorem listIsPrefixOf_of_append_left {a b c : List Char}
    (h : (a ++ b).isPrefixOf c = true) : a.isPrefixOf c = true := by
  simp at h ⊢
  obtain ⟨t, ht⟩ := h
  exact ⟨b ++ t, by rw [← List.append_assoc, ht]⟩

theorem startsWith_joinPath (dir name : String) :
    startsWith dir (joinPath dir name) = true := by
  show dir.data.isPrefixOf ((dir ++ "/") ++ name).data = true
  rw [data_append, data_append, List.append_assoc]
  exact listIsPrefixOf_append _ _

theorem startsWith_of_insideDir (dir path : String) (h : insideDir dir path = true) :
    startsWith dir path = true := by
  have h' : ((dir ++ "/")).data.isPrefixOf path.data = true := h
  rw [data_append] at h'
  exact listIsPrefixOf_of_append_left h'

theorem deleteRequest_not_mem (dir path : String) (fs : List String) (removeOk : Bool)
    (h : fs.contains path = false) :
    deleteRequest dir path fs removeOk = (.notFile, fs) := by
  unfold deleteRequest
  rw [h]
  simp

theorem deleteRequest_fatal (dir path : String) (fs : List String) (removeOk : Bool)
    (h1 : fs.contains path = true) (h2 : startsWith dir path = false) :
    deleteRequest dir path fs removeOk = (.fatalExit, fs) := by
  unfold deleteRequest
  rw [h1, h2]
  simp

theorem deleteRequest_removed (dir path : String) (fs : List String)
    (h1 : fs.contains path = true) (h2 : startsWith dir path = true) :
    deleteRequest dir path fs true = (.removed, fs.erase path) := by
  unfold deleteRequest
  rw [h1, h2]
  simp

theorem deleteRequest_removeFailed (dir path : String) (fs : List String)
    (h1 : fs.contains path = true) (h2 : startsWith dir path = true) :
    deleteRequest dir path fs false = (.removeFailed, fs) := by
  unfold deleteRequest
  rw [h1, h2]
  simp

theorem deleteRequest_ne_fatal (dir path : String) (fs : List String) (removeOk : Bool)
    (h : startsWith dir path = true) :
    (deleteRequest dir path fs removeOk).1 ≠ DeleteOutcome.fatalExit := by
  cases hc : fs.contains path with
  | false => rw [deleteRequest_not_mem dir path fs removeOk hc]; simp
  | true =>
    cases removeOk with
    | false => rw [deleteRequest_removeFailed dir path fs hc h]; simp
    | true => rw [deleteRequest_removed dir path fs hc h]; simp

theorem drainFrom_spec (dir : String) (handleOk removeOk : String → Bool) :
    ∀ (pending fs handled fails : List String) (sleeps : Nat),
      (∀ p ∈ pending, startsWith dir p = true) →
      (drainFrom dir handleOk removeOk pending fs handled fails sleeps).fatal = false ∧
      (drainFrom dir handleOk removeOk pending fs handled fails sleeps).handled =
        handled ++ pending ∧
      (drainFrom dir handleOk removeOk pending fs handled fails sleeps).sleeps =
        sleeps + pending.length := by
  intro pending
  induction pending with
  | nil => intro fs handled fails sleeps _; simp [drainFrom]
  | cons path rest ih =>
    intro fs handled fails sleeps hpre
    have hne := deleteRequest_ne_fatal dir path fs (removeOk path) (hpre path (by simp))
    simp only [drainFrom]
    rw [if_neg hne]
    obtain ⟨h1, h2, h3⟩ := ih (deleteRequest dir path fs (removeOk path)).2 (handled ++ [path])
      (if handleOk path then fails else fails ++ [path]) (sleeps + 1)
      (fun p hp => hpre p (by simp [hp]))
    refine ⟨h1, ?_, ?_⟩
    · rw [h2]; simp
    · rw [h3]; simp; omega

theorem drainFrom_removes (dir : String) (handleOk : String → Bool) :
    ∀ (pending fs handled fails : List String) (sleeps : Nat),
      pending.Nodup → fs.Nodup →
      (∀ p ∈ pending, p ∈ fs) →
      (∀ p ∈ pending, startsWith dir p = true) →
      ∀ q, q ∈ (drainFrom dir handleOk (fun _ => true) pending fs handled fails sleeps).fs ↔
        (q ∈ fs ∧ q ∉ pending) := by
  intro pending
  induction pending with
  | nil => intro fs handled fails sleeps _ _ _ _ q; simp [drainFrom]
  | cons path rest ih =>
    intro fs handled fails sleeps hnd hfs hsub hpre q
    have hmem : path ∈ fs := hsub path (by simp)
    have hcont : fs.contains path = true := by simpa using hmem
    have hpath : startsWith dir path = true := hpre path (by simp)
    have hdel := deleteRequest_removed dir path fs hcont hpath
    simp only [drainFrom]
    rw [hdel]
    rw [if_neg (by simp)]
    have hrec := ih (fs.erase path) (handled ++ [path])
      (if handleOk path then fails else fails ++ [path]) (sleeps + 1)
      hnd.of_cons (hfs.erase path)
      (fun p hp => (hfs.mem_erase_iff).mpr
        ⟨fun heq => ((List.nodup_cons.mp hnd).1 (heq ▸ hp)), hsub p (by simp [hp])⟩)
      (fun p hp => hpre p (by simp [hp])) q
    rw [hrec, hfs.mem_erase_iff]
    simp only [List.mem_cons]
    constructor
    · rintro ⟨⟨hne', hq⟩, hnr⟩
      exact ⟨hq, fun h => h.elim (fun h' => hne' h') hnr⟩
    · rintro ⟨hq, hn⟩
      exact ⟨⟨fun h => hn (Or.inl h), hq⟩, fun h => hn (Or.inr h)⟩

theorem enumerateRequests_perm (dir : String) (entries : List DirEntry) :
    (enumerateRequests dir entries).Perm (filesOf dir entries) :=
  List.perm_insertionSort sortRel (filesOf dir entries)

theorem enumerateRequests_sorted (dir : String) (entries : List DirEntry) :
    List.Sorted sortRel (enumerateRequests dir entries) :=
  List.sorted_insertionSort sortRel (filesOf dir entries)

theorem startsWith_of_mem_filesOf (dir : String) (entries : List DirEntry) (p : String)
    (hp : p ∈ filesOf dir entries) : startsWith dir p = true := by
  obtain ⟨e, _, he⟩ := List.mem_map.mp hp
  rw [← he]
  exact startsWith_joinPath dir e.name

theorem startsWith_of_mem_enum (dir : String) (entries : List DirEntry) (p : String)
    (hp : p ∈ enumerateRequests dir entries) : startsWith dir p = true :=
  startsWith_of_mem_filesOf dir entries p ((enumerateRequests_perm dir entries).subset hp)

/-- Stated from the spec's words for claim C2 (for comparison with
`deleteRequest`, which is translated from the code): a deletion target not
located inside the requests directory is fatal and must not be removed, while
a target that no longer exists is logged and skipped. -/
def deleteSpecClaimedC2 (dir path : String) (fs : List String)
    (res : DeleteOutcome × List String) : Prop :=
  (insideDir dir path = false → res.1 = DeleteOutcome.fatalExit ∧ res.2 = fs) ∧
  (fs.contains path = false → res.1 ≠ DeleteOutcome.fatalExit ∧ res.2 = fs)

/-- Claim C2 counterexample: with requests directory `/r`, the existing file
`/rx` is not located inside `/r`, yet the deletion step removes it without
terminating: the code's sanity check is `path.startswith(dir)`, a plain
string-prefix test that `/rx` passes. -/
theorem C2_cex :
    ¬ deleteSpecClaimedC2 "/r" "/rx" ["/rx"] (deleteRequest "/r" "/rx" ["/rx"] true) := by
  unfold deleteSpecClaimedC2
  decide

/-- Claim C2 amended: the deletion step checks, in this order: (1) if the
re-resolved path is not an existing regular file, the error is logged and the
drain continues, even for a path outside the requests directory; (2)
otherwise, if the absolute path does not start with the requests-directory
string (a plain string-prefix test, not directory containment), the process
terminates with nonzero status and the file is not removed; (3) otherwise the
removal is attempted. -/
theorem C2_amended (dir path : String) (fs : List String) (removeOk : Bool) :
    (fs.contains path = false →
      deleteRequest dir path fs removeOk = (DeleteOutcome.notFile, fs)) ∧
    (fs.contains path = true → startsWith dir path = false →
      deleteRequest dir path fs removeOk = (DeleteOutcome.fatalExit, fs)) ∧
    (fs.contains path = true → startsWith dir path = true →
      deleteRequest dir path fs removeOk =
        (if removeOk then (DeleteOutcome.removed, fs.erase path)
         else (DeleteOutcome.removeFailed, fs))) :=
  ⟨deleteRequest_not_mem dir path fs removeOk,
   deleteRequest_fatal dir path fs removeOk,
   fun h1 h2 => by
     cases removeOk with
     | true => simpa using deleteRequest_removed dir path fs h1 h2
     | false => simpa using deleteRequest_removeFailed dir path fs h1 h2⟩

/-- Concrete instances of the amended claim C2: a missing file is skipped, an
existing file failing the prefix test is fatal and kept, an in-directory
removal failure keeps the file. -/
theorem C2_amended_witness :
    deleteRequest "/r" "/x" ["/x"] true = (DeleteOutcome.fatalExit, ["/x"]) ∧
    deleteRequest "/r" "/gone" [] true = (DeleteOutcome.notFile, []) ∧
    deleteRequest "/r" "/r/a" ["/r/a"] false = (DeleteOutcome.removeFailed, ["/r/a"]) := by
  refine ⟨(C2_amended "/r" "/x" ["/x"] true).2.1 (by decide) (by decide),
    (C2_amended "/r" "/gone" [] true).1 (by decide), ?_⟩
  have h := (C2_amended "/r" "/r/a" ["/r/a"] false).2.2 (by decide) (by decide)
  simpa using h

/-- Claim C3: the entry point's documented contract is to drain pre-existing
requests before the blocking watch loop, but `main` only constructs the
handler and calls `watch_forever`: no drain step occurs before the loop. -/
theorem C3_main_has_no_initial_drain :
    mainSteps = [EngineStep.watchLoop] ∧ EngineStep.drainAll ∉ mainSteps := by
  decide

/-- Claim C4: whenever the file-write-complete callback is invoked while the
watch loop runs, it performs exactly a full drain of all request files then
present, independent of the file named in the notification. -/
theorem C4_notification_triggers_full_drain (dir : String)
    (handleOk removeOk : String → Bool) (entries : List DirEntry)
    (eventPathname : String) :
    processInCloseWrite dir handleOk removeOk entries eventPathname =
      handleExistingRequests dir handleOk removeOk entries ∧
    (processInCloseWrite dir handleOk removeOk entries eventPathname).handled =
      enumerateRequests dir entries := by
  refine ⟨rfl, ?_⟩
  have h := drainFrom_spec dir handleOk removeOk (enumerateRequests dir entries)
    (filesOf dir entries) [] [] 0 (startsWith_of_mem_enum dir entries)
  simpa [processInCloseWrite, handleExistingRequests] using h.2.1

/-- Claim C8 counterexample: a drain of a single file performs one cooling
sleep, not zero: the sleep also occurs after the last request. -/
theorem C8_cex :
    (handleExistingRequests "/r" (fun _ => true) (fun _ => true) [⟨"a", true⟩]).sleeps = 1 ∧
    (handleExistingRequests "/r" (fun _ => true) (fun _ => true) [⟨"a", true⟩]).sleeps ≠
      1 - 1 := by
  decide

/-- Claim C8 amended: within one drain over K files the cooling sleep runs
after every request's handling-and-deletion, including the last: exactly K
sleeps for K files, zero for an empty drain (and the drain never exits the
process). -/
theorem C8_amended (dir : String) (handleOk removeOk : String → Bool)
    (entries : List DirEntry) :
    (handleExistingRequests dir handleOk removeOk entries).sleeps =
      (enumerateRequests dir entries).length ∧
    (handleExistingRequests dir handleOk removeOk entries).fatal = false := by
  have h := drainFrom_spec dir handleOk removeOk (enumerateRequests dir entries)
    (filesOf dir entries) [] [] 0 (startsWith_of_mem_enum dir entries)
  exact ⟨by simpa [handleExistingRequests] using h.2.2,
    by simpa [handleExistingRequests] using h.1⟩

/-- Claim C9: a repo string with no slash that is exactly `tasks`, `contests`
or `users` passes validation (its first slash-delimited segment is the whole
string) and is dispatched under that repository type rather than the
unknown-type error. -/
theorem C9_bare_repo_type_valid :
    validateRequest (.dict [("user", .str "u"), ("repo", .str "tasks")]) = .ok () ∧
    validateRequest (.dict [("user", .str "u"), ("repo", .str "contests")]) = .ok () ∧
    validateRequest (.dict [("user", .str "u"), ("repo", .str "users")]) = .ok () ∧
    repoType "tasks" = "tasks" ∧ repoType "contests" = "contests" ∧
    repoType "users" = "users" ∧
    (∀ (contests : List String) (manifests : String → List String),
      updateSafely contests manifests "users" (repoType "users") =
        .ok (.updateUsers ::
          contests.map (fun contest => .updateContest contest true true false)) ∧
      updateSafely contests manifests "contests" (repoType "contests") =
        (if contests.contains "contests" then
          .ok [.updateContest "contests" true true true] else .ok []) ∧
      ∃ calls, updateSafely contests manifests "tasks" (repoType "tasks") = .ok calls) := by
  refine ⟨rfl, rfl, rfl, rfl, rfl, rfl, ?_⟩
  intro contests manifests
  refine ⟨rfl, rfl, ?_⟩
  have hred : updateSafely contests manifests "tasks" (repoType "tasks") =
      (if (getTaskContests contests manifests "tasks").isEmpty = true then Except.ok [] else
        Except.ok (Call.generateTask "tasks" true true ::
          (getTaskContests contests manifests "tasks").map
            (fun contest => Call.updateContest contest true true false))) := rfl
  by_cases h : (getTaskContests contests manifests "tasks").isEmpty = true
  · refine ⟨[], ?_⟩
    rw [hred, h]
    simp
  · refine ⟨.generateTask "tasks" true true ::
      (getTaskContests contests manifests "tasks").map
        (fun contest => .updateContest contest true true false), ?_⟩
    rw [hred, if_neg h]

/-- Claim C10: the deletion step always returns to the drain loop except for
the fatal exit, which happens only for an existing file that fails the
directory test (so never for a path inside the requests directory); for an
in-directory target whose removal fails, the failure is logged and the file
is left in place. -/
theorem C10_delete_never_raises (dir path : String) (fs : List String) (removeOk : Bool) :
    ((deleteRequest dir path fs removeOk).1 = DeleteOutcome.fatalExit →
      insideDir dir path = false ∧ (deleteRequest dir path fs removeOk).2 = fs) ∧
    (insideDir dir path = true →
      (deleteRequest dir path fs removeOk).1 ≠ DeleteOutcome.fatalExit) ∧
    (insideDir dir path = true → fs.contains path = true → removeOk = false →
      (deleteRequest dir path fs removeOk).1 = DeleteOutcome.removeFailed ∧
      (deleteRequest dir path fs removeOk).2 = fs) := by
  refine ⟨?_, ?_, ?_⟩
  · intro hf
    by_cases hc : fs.contains path = true
    · by_cases hs : startsWith dir path = true
      · exact absurd hf (deleteRequest_ne_fatal dir path fs removeOk hs)
      · have hs' : startsWith dir path = false := by
          revert hs; cases startsWith dir path <;> simp
        constructor
        · cases hi : insideDir dir path with
          | false => rfl
          | true =>
            have := startsWith_of_insideDir dir path hi
            rw [hs'] at this
            exact absurd this (by simp)
        · rw [deleteRequest_fatal dir path fs removeOk hc hs']
    · have hc' : fs.contains path = false := by
        revert hc; cases fs.contains path <;> simp
      rw [deleteRequest_not_mem dir path fs removeOk hc'] at hf
      simp at hf
  · intro hi
    exact deleteRequest_ne_fatal dir path fs removeOk (startsWith_of_insideDir dir path hi)
  · intro hi hc hro
    subst hro
    rw [deleteRequest_removeFailed dir path fs hc (startsWith_of_insideDir dir path hi)]
    exact ⟨rfl, rfl⟩

/-- Concrete instance of claim C10: removal failure on an in-directory file
is non-fatal and keeps the file. -/
theorem C10_witness :
    (deleteRequest "/r" "/r/a" ["/r/a"] false).1 = DeleteOutcome.removeFailed ∧
    (deleteRequest "/r" "/r/a" ["/r/a"] false).2 = ["/r/a"] :=
  (C10_delete_never_raises "/r" "/r/a" ["/r/a"] false).2.2 (by decide) (by decide) rfl

theorem matchList_of_count_le_one (l : List String) (x c : String)
    (h : l.count x ≤ 1) :
    (l.filter (fun p => p == x)).map (fun _ => c) =
      (if l.contains x then [c] else []) := by
  induction l with
  | nil => simp
  | cons y ys ih =>
    by_cases hyx : y = x
    · subst hyx
      have hcount : ys.count y = 0 := by
        rw [List.count_cons_self] at h
        omega
      have hnot : y ∉ ys := List.count_eq_zero.mp hcount
      have hfil : ys.filter (fun p => p == y) = [] :=
        List.filter_eq_nil_iff.mpr (fun p hp => by
          simp only [beq_iff_eq]
          intro hpy
          exact hnot (hpy ▸ hp))
      simp [hfil]
    · have hbeq : (y == x) = false := by simp [hyx]
      have hcount : ys.count x ≤ 1 := by
        rw [List.count_cons_of_ne (fun hx => hyx hx.symm)] at h
        exact h
      have hbeq2 : (x == y) = false := by
        simp only [beq_eq_false_iff_ne, ne_eq]
        intro hxy
        exact hyx hxy.symm
      have hxy : ¬ x = y := fun hxy => hyx hxy.symm
      simp [hbeq, hbeq2, ih hcount, List.contains_cons, hxy]

theorem getTaskContests_eq_filter (contests : List String)
    (manifests : String → List String) (repo : String)
    (hdup : ∀ c ∈ contests, (manifests c).count repo ≤ 1) :
    getTaskContests contests manifests repo =
      contests.filter (fun c => (manifests c).contains repo) := by
  induction contests with
  | nil => rfl
  | cons c cs ih =>
    have hcons : getTaskContests (c :: cs) manifests repo =
        ((manifests c).filter (fun p => p == repo)).map (fun _ => c) ++
          getTaskContests cs manifests repo := rfl
    rw [hcons, matchList_of_count_le_one (manifests c) repo c (hdup c (by simp)),
      ih (fun c' hc' => hdup c' (by simp [hc']))]
    by_cases hc : (manifests c).contains repo = true
    · rw [if_pos hc, List.filter_cons, if_pos hc]
      rfl
    · rw [if_neg hc, List.filter_cons, if_neg hc]
      rfl

theorem updateContest_inj :
    Function.Injective (fun c => Call.updateContest c true true false) := by
  intro a b h
  simpa using h

/-- Claim C6 counterexample: contest `A` is active and its manifest lists the
task path `tasks/t1` twice; the dispatch then calls `update_contest(A, ...)`
twice, not exactly once per contest of the resolved subset. -/
theorem C6_cex :
    getCalls (updateSafely ["A"] (fun c => if c == "A" then ["tasks/t1", "tasks/t1"] else [])
        "tasks/t1" (repoType "tasks/t1")) =
      [.generateTask "tasks/t1" true true, .updateContest "A" true true false,
        .updateContest "A" true true false] ∧
    (getCalls (updateSafely ["A"] (fun c => if c == "A" then ["tasks/t1", "tasks/t1"] else [])
        "tasks/t1" (repoType "tasks/t1"))).count (.updateContest "A" true true false) ≠ 1 := by
  decide

/-- Claim C6 amended: for a validated Task request, with `S` the contests of
the active set whose manifest lists the task's path, the dispatch makes no
call when `S` is empty, and otherwise exactly one `generate_task(repo, true,
true)` call followed by one `update_contest(c, true, true, false)` call per
matching manifest entry; provided no manifest lists the path more than once,
that is exactly one call per contest of `S`, and no call references an active
contest outside `S`. -/
theorem C6_task_dispatch (contests : List String) (manifests : String → List String)
    (repo : String) (hty : repoType repo = "tasks") (hnd : contests.Nodup)
    (hdup : ∀ c ∈ contests, (manifests c).count repo ≤ 1) :
    (contests.filter (fun c => (manifests c).contains repo) = [] →
      getCalls (updateSafely contests manifests repo (repoType repo)) = []) ∧
    (contests.filter (fun c => (manifests c).contains repo) ≠ [] →
      getCalls (updateSafely contests manifests repo (repoType repo)) =
        .generateTask repo true true ::
          (contests.filter (fun c => (manifests c).contains repo)).map
            (fun c => .updateContest c true true false)) ∧
    (∀ c ∈ contests.filter (fun c => (manifests c).contains repo),
      (getCalls (updateSafely contests manifests repo (repoType repo))).count
        (.updateContest c true true false) = 1) ∧
    ((getCalls (updateSafely contests manifests repo (repoType repo))).count
        (.generateTask repo true true) =
      if contests.filter (fun c => (manifests c).contains repo) = [] then 0 else 1) ∧
    (∀ c ∈ contests, c ∉ contests.filter (fun c => (manifests c).contains repo) →
      ∀ (u g uu : Bool),
        (getCalls (updateSafely contests manifests repo (repoType repo))).count
          (.updateContest c u g uu) = 0) := by
  rw [hty]
  have hred : updateSafely contests manifests repo "tasks" =
      (if (getTaskContests contests manifests repo).isEmpty = true then Except.ok [] else
        Except.ok (Call.generateTask repo true true ::
          (getTaskContests contests manifests repo).map
            (fun contest => Call.updateContest contest true true false))) := rfl
  rw [hred, getTaskContests_eq_filter contests manifests repo hdup]
  have hSnd : (contests.filter (fun c => (manifests c).contains repo)).Nodup := hnd.filter _
  by_cases hS : contests.filter (fun c => (manifests c).contains repo) = []
  · rw [hS]
    simp [getCalls]
  · have hE : (contests.filter (fun c => (manifests c).contains repo)).isEmpty = false := by
      cases hE : (contests.filter (fun c => (manifests c).contains repo)).isEmpty with
      | true => exact absurd (List.isEmpty_iff.mp hE) hS
      | false => rfl
    rw [hE, if_neg (by simp)]
    refine ⟨fun h => absurd h hS, fun _ => rfl, ?_, ?_, ?_⟩
    · intro c hc
      show (Call.generateTask repo true true ::
        (contests.filter (fun c => (manifests c).contains repo)).map
          (fun c => Call.updateContest c true true false)).count
            (Call.updateContest c true true false) = 1
      rw [List.count_cons_of_ne (by simp)]
      have hcm := List.count_map_of_injective
        (contests.filter (fun c => (manifests c).contains repo))
        (fun c => Call.updateContest c true true false) updateContest_inj c
      rw [hcm]
      exact List.count_eq_one_of_mem hSnd hc
    · rw [if_neg hS]
      show (Call.generateTask repo true true ::
        (contests.filter (fun c => (manifests c).contains repo)).map
          (fun c => Call.updateContest c true true false)).count
            (Call.generateTask repo true true) = 1
      rw [List.count_cons_self]
      have hz : ((contests.filter (fun c => (manifests c).contains repo)).map
          (fun c => Call.updateContest c true true false)).count
            (Call.generateTask repo true true) = 0 :=
        List.count_eq_zero.mpr (by simp)
      rw [hz]
    · intro c _ hcS u g uu
      show (Call.generateTask repo true true ::
        (contests.filter (fun c => (manifests c).contains repo)).map
          (fun c => Call.updateContest c true true false)).count
            (Call.updateContest c u g uu) = 0
      apply List.count_eq_zero.mpr
      intro hmem
      rcases List.mem_cons.mp hmem with h | h
      · exact absurd h (by simp)
      · obtain ⟨c', hc', hceq⟩ := List.mem_map.mp h
        injection hceq with e1 _ _ _
        exact hcS (e1 ▸ hc')

/-- Concrete instance of the amended claim C6: task `tasks/t1` is listed once
in active contest `A`'s manifest and not in `C`'s: one generation call, then
one update call for `A` only. -/
theorem C6_task_dispatch_witness :
    getCalls (updateSafely ["A", "C"] (fun c => if c == "A" then ["tasks/t1"] else [])
        "tasks/t1" (repoType "tasks/t1")) =
      [.generateTask "tasks/t1" true true, .updateContest "A" true true false] := by
  have h := C6_task_dispatch ["A", "C"] (fun c => if c == "A" then ["tasks/t1"] else [])
    "tasks/t1" (by decide) (by decide) (by decide)
  exact (h.2.1 (by decide)).trans (by decide)

/-- Claim C7: for a validated User request the dispatch calls `update_users`
exactly once, followed by exactly one `update_contest(c, true, true, false)`
call for every active contest, and every `update_contest` call made carries
`update_users = false`. -/
theorem C7_users_dispatch (contests : List String) (manifests : String → List String)
    (repo : String) (hty : repoType repo = "users") (hnd : contests.Nodup) :
    getCalls (updateSafely contests manifests repo (repoType repo)) =
      Call.updateUsers :: contests.map (fun c => Call.updateContest c true true false) ∧
    (getCalls (updateSafely contests manifests repo (repoType repo))).count
      Call.updateUsers = 1 ∧
    (∀ c ∈ contests,
      (getCalls (updateSafely contests manifests repo (repoType repo))).count
        (Call.updateContest c true true false) = 1) ∧
    (∀ (c : String) (u g uu : Bool),
      Call.updateContest c u g uu ∈
          getCalls (updateSafely contests manifests repo (repoType repo)) →
        uu = false) := by
  rw [hty]
  have hred : getCalls (updateSafely contests manifests repo "users") =
      Call.updateUsers :: contests.map (fun c => Call.updateContest c true true false) := rfl
  rw [hred]
  refine ⟨rfl, ?_, ?_, ?_⟩
  · rw [List.count_cons_self]
    have hz : (contests.map (fun c => Call.updateContest c true true false)).count
        Call.updateUsers = 0 := List.count_eq_zero.mpr (by simp)
    rw [hz]
  · intro c hc
    rw [List.count_cons_of_ne (by simp)]
    have hcm := List.count_map_of_injective contests
      (fun c => Call.updateContest c true true false) updateContest_inj c
    rw [hcm]
    exact List.count_eq_one_of_mem hnd hc
  · intro c u g uu hmem
    rcases List.mem_cons.mp hmem with h | h
    · exact absurd h (by simp)
    · obtain ⟨c', _, hceq⟩ := List.mem_map.mp h
      injection hceq with _ _ _ e4
      exact e4.symm

/-- Concrete instance of claim C7: with active contests `A` and `B`, a users
request yields `update_users` then one `update_contest(_, true, true, false)`
for each of `A` and `B`. -/
theorem C7_users_dispatch_witness :
    getCalls (updateSafely ["A", "B"] (fun _ => []) "users/x" (repoType "users/x")) =
      [.updateUsers, .updateContest "A" true true false,
        .updateContest "B" true true false] := by
  have h := C7_users_dispatch ["A", "B"] (fun _ => []) "users/x" (by decide) (by decide)
  exact h.1.trans (by decide)

/-- Claim C1: for the request files enumerated at drain start (pairwise
distinct paths, removal modeled as succeeding), the drain handles each
exactly once, in particular at most once, regardless of each handling
attempt's success, and every enumerated file is deleted by the end of the
drain. -/
theorem C1_drain_once_and_deletes (dir : String) (handleOk : String → Bool)
    (entries : List DirEntry) (hnd : (filesOf dir entries).Nodup) :
    (handleExistingRequests dir handleOk (fun _ => true) entries).fatal = false ∧
    (handleExistingRequests dir handleOk (fun _ => true) entries).handled =
      enumerateRequests dir entries ∧
    (handleExistingRequests dir handleOk (fun _ => true) entries).handled.Nodup ∧
    (handleExistingRequests dir handleOk (fun _ => true) entries).fs = [] := by
  have hperm := enumerateRequests_perm dir entries
  have henum_nd : (enumerateRequests dir entries).Nodup := hperm.nodup_iff.mpr hnd
  have hspec := drainFrom_spec dir handleOk (fun _ => true) (enumerateRequests dir entries)
    (filesOf dir entries) [] [] 0 (startsWith_of_mem_enum dir entries)
  have hrem := drainFrom_removes dir handleOk (enumerateRequests dir entries)
    (filesOf dir entries) [] [] 0 henum_nd hnd (fun p hp => hperm.subset hp)
    (startsWith_of_mem_enum dir entries)
  have hhandled : (handleExistingRequests dir handleOk (fun _ => true) entries).handled =
      enumerateRequests dir entries := by
    simpa [handleExistingRequests] using hspec.2.1
  refine ⟨by simpa [handleExistingRequests] using hspec.1, hhandled, ?_, ?_⟩
  · rw [hhandled]
    exact henum_nd
  · apply List.eq_nil_iff_forall_not_mem.mpr
    intro q hq
    have hq' : q ∈ (drainFrom dir handleOk (fun _ => true) (enumerateRequests dir entries)
        (filesOf dir entries) [] [] 0).fs := by
      simpa [handleExistingRequests] using hq
    obtain ⟨hq1, hq2⟩ := (hrem q).mp hq'
    exact hq2 (hperm.mem_iff.mpr hq1)

/-- Concrete instance of claim C1: two request files, one of which fails its
handling, are both handled once and both deleted. -/
theorem C1_witness :
    (handleExistingRequests "/r" (fun p => p == "/r/a") (fun _ => true)
      [⟨"b", true⟩, ⟨"a", true⟩, ⟨"sub", false⟩]).fatal = false ∧
    (handleExistingRequests "/r" (fun p => p == "/r/a") (fun _ => true)
      [⟨"b", true⟩, ⟨"a", true⟩, ⟨"sub", false⟩]).handled =
      enumerateRequests "/r" [⟨"b", true⟩, ⟨"a", true⟩, ⟨"sub", false⟩] ∧
    (handleExistingRequests "/r" (fun p => p == "/r/a") (fun _ => true)
      [⟨"b", true⟩, ⟨"a", true⟩, ⟨"sub", false⟩]).handled.Nodup ∧
    (handleExistingRequests "/r" (fun p => p == "/r/a") (fun _ => true)
      [⟨"b", true⟩, ⟨"a", true⟩, ⟨"sub", false⟩]).fs = [] :=
  C1_drain_once_and_deletes "/r" (fun p => p == "/r/a")
    [⟨"b", true⟩, ⟨"a", true⟩, ⟨"sub", false⟩] (by decide)

/-- Claim C5 counterexample: with the lock file `.lock` present as a regular
file, the code's enumeration includes it and it would be processed as a
request, while the claim's enumeration excludes it. -/
theorem C5_cex :
    enumerateRequests "/r" [⟨".lock", true⟩, ⟨"b", true⟩] = ["/r/.lock", "/r/b"] ∧
    specEnumerateC5 "/r" [⟨".lock", true⟩, ⟨"b", true⟩] = ["/r/b"] ∧
    enumerateRequests "/r" [⟨".lock", true⟩, ⟨"b", true⟩] ≠
      specEnumerateC5 "/r" [⟨".lock", true⟩, ⟨"b", true⟩] := by
  decide

/-- Claim C5 amended: the enumeration yields exactly the regular files of the
requests directory (subdirectories excluded; the lock file is NOT excluded),
sorted by name ascending, and that order is the drain's processing order. -/
theorem C5_enumeration (dir : String) (handleOk removeOk : String → Bool)
    (entries : List DirEntry) :
    (enumerateRequests dir entries).Perm (filesOf dir entries) ∧
    List.Sorted sortRel (enumerateRequests dir entries) ∧
    enumerateRequests dir entries =
      (List.insertionSort sortRel
        ((entries.filter (fun e => e.isFile)).map (fun e => e.name))).map
        (joinPath dir) ∧
    (handleExistingRequests dir handleOk removeOk entries).handled =
      enumerateRequests dir entries := by
  have hmapmap : ((entries.filter (fun e => e.isFile)).map (fun e => e.name)).map
      (joinPath dir) = filesOf dir entries := by
    rw [List.map_map]
    rfl
  refine ⟨enumerateRequests_perm dir entries, enumerateRequests_sorted dir entries, ?_, ?_⟩
  · apply List.eq_of_perm_of_sorted (r := sortRel)
    · have p1 := enumerateRequests_perm dir entries
      have p2 := (List.perm_insertionSort sortRel
        ((entries.filter (fun e => e.isFile)).map (fun e => e.name))).map (joinPath dir)
      rw [hmapmap] at p2
      exact p1.trans p2.symm
    · exact enumerateRequests_sorted dir entries
    · have hs := List.sorted_insertionSort sortRel
        ((entries.filter (fun e => e.isFile)).map (fun e => e.name))
      refine List.pairwise_map.mpr (hs.imp ?_)
      intro a b hab
      show strLe (joinPath dir a) (joinPath dir b) = true
      rw [strLe_joinPath]
      exact hab
  · have h := drainFrom_spec dir handleOk removeOk (enumerateRequests dir entries)
      (filesOf dir entries) [] [] 0 (startsWith_of_mem_enum dir entries)
    simpa [handleExistingRequests] using h.2.1

end RH
